import Mathlib

/-!
Verification of the document indexing and search core of
mcp-cloudcustodian-documentation (files `database.py`, `parser.py`,
`models.py`).  Python strings are modelled as `String` (or `List Char`
where character-level reasoning is needed), SQLite tables as Lean lists of
records, timestamps as a `Nat` clock passed explicitly, and the SQLite
FTS5 match/score/snippet primitives as oracle parameters.
-/

namespace Custodian

/-- The `Document` dataclass from `models.py` (fields in source order). -/
structure Document where
  path : String
  title : String
  description : Option String
  «section» : String
  content : String
  url : String
  deriving DecidableEq

/-- The `SearchResult` dataclass from `models.py`.  The float `score` is
modelled as a rational number. -/
structure SearchResult where
  path : String
  title : String
  url : String
  snippet : String
  score : ℚ
  «section» : String
  deriving DecidableEq

/-! ### Query sanitiser (`DocumentDatabase._sanitise_query`) -/

/-- The FTS5 special character class from the source regex `[.():*"]`. -/
def fts5SpecialChars : List Char := ['.', '(', ')', ':', '*', '"']

/-- Python regex word character (`\w`), restricted to the ASCII range the
claims exercise: alphanumeric or underscore. -/
def isWordChar (c : Char) : Bool := c.isAlphanum || c = '_'

/-- The FTS5 boolean operator keywords of the source regex
`\b(AND|OR|NOT)\b` (matched case-insensitively), stored lower-case. -/
def opWords : List (List Char) := [['a', 'n', 'd'], ['o', 'r'], ['n', 'o', 't']]

/-- Whether the keyword `w` occurs at position `i` of `q` as a whole word:
the characters match up to case, and both ends sit on a `\b` boundary. -/
def wordMatchAt (q : List Char) (i : Nat) (w : List Char) : Bool :=
  ((q.drop i).take w.length).map Char.toLower = w &&
  (decide (i = 0) || (match q[i-1]? with | some c => !isWordChar c | none => true)) &&
  (match q[i + w.length]? with | some c => !isWordChar c | none => true)

/-- The `re.search(r'[.():*"]', query)` as a boolean scan. -/
def hasSpecialChar (q : List Char) : Bool := q.any (fun c => fts5SpecialChars.contains c)

/-- The `re.compile(r"\b(AND|OR|NOT)\b", re.IGNORECASE).search(query)` as a
boolean scan over all start positions. -/
def hasOperatorWord (q : List Char) : Bool :=
  (List.range q.length).any (fun i => opWords.any (fun w => wordMatchAt q i w))

/-- The `query.replace('"', '""')`: double every double-quote character. -/
def escapeQuotes (q : List Char) : List Char :=
  q.flatMap (fun c => if c = '"' then ['"', '"'] else [c])

/-- The `DocumentDatabase._sanitise_query` on character lists: if the query
contains an FTS5 special character or operator keyword, escape quotes and
wrap the whole query in double quotes; otherwise return it unchanged. -/
def sanitiseQueryChars (q : List Char) : List Char :=
  if hasSpecialChar q || hasOperatorWord q then
    '"' :: (escapeQuotes q ++ ['"'])
  else q

/-- The `DocumentDatabase._sanitise_query` on `String`s. -/
def sanitise_query (q : String) : String := (sanitiseQueryChars q.data).asString

/-- The trigger condition exactly as the specification words it: the raw
query contains one of the characters `.():*"` or one of the whole words
AND, OR, NOT in any letter case. -/
def TriggerSpec (q : List Char) : Prop :=
  (∃ c ∈ q, c ∈ fts5SpecialChars) ∨
  (∃ i < q.length, ∃ w ∈ opWords, wordMatchAt q i w = true)

instance (q : List Char) : Decidable (TriggerSpec q) := by
  unfold TriggerSpec; infer_instance


/-! ### Document store (`DocumentDatabase`, `database.py`)

The SQLite `documents` table is a list of rows, the FTS5 external-content
table `documents_fts` a list of entries keyed by `rowid`.  The three
triggers `documents_ai` / `documents_au` / `documents_ad` are folded into
the operations that fire them.  `CURRENT_TIMESTAMP` is an explicit `Nat`
clock argument, and the autoincrement counter is `nextId`. -/

/-- A row of the `documents` table (schema in `_initialise_schema`). -/
structure Row where
  id : Nat
  path : String
  title : String
  description : Option String
  «section» : String
  url : String
  content : String
  created_at : Nat
  updated_at : Nat
  deriving DecidableEq

/-- An entry of the FTS5 table `documents_fts`: `rowid` plus the three
indexed columns `title`, `description`, `content`. -/
structure FtsEntry where
  rowid : Nat
  title : String
  description : Option String
  content : String
  deriving DecidableEq

/-- The index entry the triggers derive from a document row. -/
def rowFts (r : Row) : FtsEntry := ⟨r.id, r.title, r.description, r.content⟩

/-- The `Document` value `get_document` reconstructs from a row. -/
def rowDoc (r : Row) : Document :=
  ⟨r.path, r.title, r.description, r.«section», r.content, r.url⟩

/-- Database state: `documents` table, `documents_fts` table, and the
autoincrement counter for `id`. -/
structure DBState where
  documents : List Row
  fts : List FtsEntry
  nextId : Nat
  deriving DecidableEq

/-- A freshly initialised (empty) database; SQLite autoincrement ids
start at 1. -/
def DBState.init : DBState := ⟨[], [], 1⟩

/-- The `ON CONFLICT(path) DO UPDATE SET` clause of `upsert_document`:
replace every field except `path`, `id` and `created_at`, and set
`updated_at` to the current timestamp. -/
def updateRow (r : Row) (d : Document) (now : Nat) : Row :=
  { r with title := d.title, description := d.description,
           «section» := d.«section», url := d.url, content := d.content,
           updated_at := now }

/-- A freshly inserted row: both timestamps default to the current
timestamp (`CURRENT_TIMESTAMP` column defaults). -/
def newRow (d : Document) (id now : Nat) : Row :=
  ⟨id, d.path, d.title, d.description, d.«section», d.url, d.content, now, now⟩

/-- The `DocumentDatabase.upsert_document`: `INSERT ... ON CONFLICT(path) DO
UPDATE`, together with the index maintenance performed by the
`documents_ai` (insert) and `documents_au` (delete-then-reinsert)
triggers in the same transaction. -/
def upsert_document (st : DBState) (d : Document) (now : Nat) : DBState :=
  match st.documents.find? (fun r => r.path == d.path) with
  | some old =>
      { documents := st.documents.map
          (fun r => if r.path == d.path then updateRow r d now else r),
        fts := st.fts.filter (fun e => !(e.rowid == old.id))
                 ++ [rowFts (updateRow old d now)],
        nextId := st.nextId }
  | none =>
      { documents := st.documents ++ [newRow d st.nextId now],
        fts := st.fts ++ [rowFts (newRow d st.nextId now)],
        nextId := st.nextId + 1 }

/-- The `DocumentDatabase.clear`: `DELETE FROM documents`; the `documents_ad`
trigger removes the index entry of every deleted row.  SQLite leaves the
autoincrement sequence untouched. -/
def clear (st : DBState) : DBState :=
  { documents := [],
    fts := st.fts.filter (fun e => st.documents.all (fun r => !(r.id == e.rowid))),
    nextId := st.nextId }

/-- The `DocumentDatabase.get_document`: first row whose `path` matches, as a
`Document` (no timestamp fields are returned). -/
def get_document (st : DBState) (path : String) : Option Document :=
  (st.documents.find? (fun r => r.path == path)).map rowDoc

/-- The `DocumentDatabase.get_document_count`: `SELECT COUNT(*)`. -/
def get_document_count (st : DBState) : Nat := st.documents.length

/-- The Python truthiness test `if section:` guarding the
`AND d.section = ?` filter: `None` and the empty string disable it. -/
def sectionPass (sec : Option String) (r : Row) : Bool :=
  match sec with
  | none => true
  | some s => if s == "" then true else r.«section» == s

/-- The FROM/WHERE part of `search`: FTS entries matching the sanitised
query (`documents_fts MATCH ?`, with the match oracle `matchFn`), joined
with `documents` on `rowid = id`, then the optional section filter. -/
def searchRows (st : DBState) (matchFn : String → FtsEntry → Bool)
    (q : String) (sec : Option String) : List (FtsEntry × Row) :=
  ((st.fts.filter (matchFn q)).filterMap
      (fun e => (st.documents.find? (fun r => r.id == e.rowid)).map (fun r => (e, r))))
    |>.filter (fun p => sectionPass sec p.2)

/-- Comparison used by `ORDER BY score` (raw bm25 value, ascending). -/
def byScore (g : FtsEntry → ℚ) (a b : FtsEntry × Row) : Prop := g a.1 ≤ g b.1

instance (g : FtsEntry → ℚ) : DecidableRel (byScore g) :=
  fun a b => inferInstanceAs (Decidable (g a.1 ≤ g b.1))

instance (g : FtsEntry → ℚ) : IsTotal (FtsEntry × Row) (byScore g) :=
  ⟨fun a b => le_total (g a.1) (g b.1)⟩

instance (g : FtsEntry → ℚ) : IsTrans (FtsEntry × Row) (byScore g) :=
  ⟨fun _ _ _ h1 h2 => le_trans h1 h2⟩

/-- SQLite `LIMIT` semantics: a negative limit means no limit at all. -/
def applyLimit (lim : Int) (l : List (FtsEntry × Row)) : List (FtsEntry × Row) :=
  if lim < 0 then l else l.take lim.toNat

/-- The `DocumentDatabase.search`.  The FTS5 primitives are oracles taking
the sanitised query: `matchFn` for `MATCH`, `scoreFn` for
`bm25(documents_fts, 5.0, 2.0, 1.0)`, `snippetFn` for `snippet(...)`.
The SQL orders by the raw score ascending, truncates to `limit`, and the
exposed `score` is the absolute value of the raw (negative) bm25 score. -/
def search (st : DBState) (matchFn : String → FtsEntry → Bool)
    (scoreFn : String → FtsEntry → ℚ) (snippetFn : String → FtsEntry → String)
    (q : String) (sec : Option String) (lim : Int) : List SearchResult :=
  let q' := sanitise_query q
  let rows := searchRows st matchFn q' sec
  let sorted := List.insertionSort (byScore (scoreFn q')) rows
  (applyLimit lim sorted).map
    (fun p => ⟨p.2.path, p.2.title, p.2.url, snippetFn q' p.1,
               |scoreFn q' p.1|, p.2.«section»⟩)

/-- One client operation against the store. -/
inductive Op where
  | upsert (d : Document) (now : Nat)
  | clear
  deriving DecidableEq

/-- Apply one operation. -/
def applyOp (st : DBState) : Op → DBState
  | .upsert d now => upsert_document st d now
  | .clear => clear st

/-- Run a sequence of operations. -/
def run : DBState → List Op → DBState
  | st, [] => st
  | st, op :: ops => run (applyOp st op) ops

/-- The storage-layer consistency invariant: row ids and paths are
unique, ids are below the autoincrement counter, every row has exactly
one index entry carrying its current field values, and every index entry
belongs to some row. -/
structure Inv (st : DBState) : Prop where
  idsNodup : (st.documents.map Row.id).Nodup
  pathsNodup : (st.documents.map Row.path).Nodup
  idsLt : ∀ r ∈ st.documents, r.id < st.nextId
  ftsComplete : ∀ r ∈ st.documents,
    st.fts.filter (fun e => e.rowid == r.id) = [rowFts r]
  ftsSound : ∀ e ∈ st.fts, ∃ r ∈ st.documents, r.id = e.rowid

/-! ### RST parser (`parser.py`)

The docutils node tree is a tagged tree; only the node kinds the two
visitors dispatch on are distinguished.  `walk` is a pre-order traversal
and `SkipNode` (raised for literal blocks and comments) prevents descent
into the node's children. -/

/-- Node kinds the visitors in `parser.py` dispatch on. -/
inductive NodeKind where
  | title
  | paragraph
  | docinfo
  | literalBlock
  | comment
  | other
  deriving DecidableEq

/-- A docutils node: a text leaf or an element with children. -/
inductive Node where
  | text (s : String)
  | elem (kind : NodeKind) (children : List Node)

mutual

/-- The `node.astext()`: concatenated text of all descendant text leaves
(text elements join their children with the empty separator). -/
def astext : Node → String
  | .text s => s
  | .elem _ cs => astextList cs

/-- The `astext` over a child list. -/
def astextList : List Node → String
  | [] => ""
  | n :: ns => astext n ++ astextList ns

end

mutual

/-- The `TextContentVisitor` traversal with its accumulator
`_text_parts`, exactly as `document.walk(visitor)` drives it:
`visit_literal_block` and `visit_comment` raise `SkipNode` (no descent,
nothing collected), `visit_Text` appends the stripped text when
non-empty, every other node is a no-op that descends. -/
def walkText : List String → Node → List String
  | acc, .text s => if s.trim == "" then acc else acc ++ [s.trim]
  | acc, .elem k cs =>
    match k with
    | .literalBlock => acc
    | .comment => acc
    | _ => walkTextList acc cs

/-- The `walkText` over a child list, left to right. -/
def walkTextList : List String → List Node → List String
  | acc, [] => acc
  | acc, n :: ns => walkTextList (walkText acc n) ns

end

/-- The `DocumentParser._extract_text_content` followed by
`TextContentVisitor.get_text`: `" ".join(self._text_parts)`. -/
def extract_text_content (t : Node) : String :=
  String.intercalate " " (walkText [] t)

mutual

/-- Claim-side description of the text extraction (spec 4.3): each text
leaf outside literal/code blocks and comments contributes its trimmed
text when non-empty, in source order; literal blocks and comments
contribute nothing. -/
def specProseTexts : Node → List String
  | .text s => if s.trim == "" then [] else [s.trim]
  | .elem k cs =>
    match k with
    | .literalBlock => []
    | .comment => []
    | _ => specProseTextsList cs

/-- The `specProseTexts` over a child list. -/
def specProseTextsList : List Node → List String
  | [] => []
  | n :: ns => specProseTexts n ++ specProseTextsList ns

end

mutual

/-- The `MetadataVisitor` title capture: the first `title` node in pre-order
walk order supplies `visitor.title = node.astext()`. -/
def firstTitle : Node → Option String
  | .text _ => none
  | .elem k cs =>
    match k with
    | .title => some (astextList cs)
    | _ => firstTitleList cs

/-- The `firstTitle` over a child list. -/
def firstTitleList : List Node → Option String
  | [] => none
  | n :: ns =>
    match firstTitle n with
    | some t => some t
    | none => firstTitleList ns

end

mutual

/-- The `MetadataVisitor` description capture: the first `paragraph` node
visited while `_in_docinfo` is false supplies the description (its
`astext()`); entering a `docinfo` node sets the flag for its subtree. -/
def firstDesc : Bool → Node → Option String
  | _, .text _ => none
  | inD, .elem k cs =>
    match k with
    | .docinfo => firstDescList true cs
    | .paragraph => if inD then firstDescList inD cs else some (astextList cs)
    | _ => firstDescList inD cs

/-- The `firstDesc` over a child list. -/
def firstDescList : Bool → List Node → Option String
  | _, [] => none
  | inD, n :: ns =>
    match firstDesc inD n with
    | some t => some t
    | none => firstDescList inD ns

end

mutual

/-- Whether the tree contains a `title` node (claim-side predicate). -/
def hasTitleNode : Node → Bool
  | .text _ => false
  | .elem k cs => k == .title || hasTitleNodeList cs

/-- The `hasTitleNode` over a child list. -/
def hasTitleNodeList : List Node → Bool
  | [] => false
  | n :: ns => hasTitleNode n || hasTitleNodeList ns

end

/-- The `DocumentMetadata` dataclass from `models.py`. -/
structure DocumentMetadata where
  title : String
  description : Option String
  deriving DecidableEq

/-- The `file_path.stem.replace("-", " ").replace("_", " ")`: each of the two
`str.replace` calls replaces a single character by a space. -/
def replaceDashUnderscore (s : String) : String :=
  ⟨(s.data.map (fun c => if c = '-' then ' ' else c)).map
     (fun c => if c = '_' then ' ' else c)⟩

/-- Python `str.title()` over ASCII: a letter is upper-cased when the
previous character is not a letter and lower-cased otherwise; non-letters
pass through and reset the word boundary. -/
def pyTitleGo : Bool → List Char → List Char
  | _, [] => []
  | prevCased, c :: cs =>
    if c.isAlpha then
      (if prevCased then c.toLower else c.toUpper) :: pyTitleGo true cs
    else
      c :: pyTitleGo false cs

/-- Python `str.title()`. -/
def pyTitle (s : String) : String := ⟨pyTitleGo false s.data⟩

/-- The filename-derived fallback title of `_extract_metadata`. -/
def fallbackTitle (stem : String) : String := pyTitle (replaceDashUnderscore stem)

/-- The `DocumentParser._extract_metadata`: walk the tree with
`MetadataVisitor`; if the captured title is `None` or empty (`if not
title`), fall back to the filename-derived title. -/
def extract_metadata (tree : Node) (stem : String) : DocumentMetadata :=
  let t := firstTitle tree
  let title :=
    match t with
    | some s => if s == "" then fallbackTitle stem else s
    | none => fallbackTitle stem
  ⟨title, firstDesc false tree⟩

/-- The `DocumentParser._extract_section` on the list of path components
(`relative_path.parts`); `none` models the `IndexError` Python raises on
an empty component list (`parts[0]`). -/
def extract_section : List String → Option String
  | [] => none
  | p0 :: rest =>
    if p0 == "source" && !rest.isEmpty then rest.head?
    else if !rest.isEmpty then some p0
    else some "root"

/-- The `DocumentParser._compute_url`: join the components, strip a leading
`source/`, rewrite a final `.rst` / `.rest` extension to `.html` (the
regex match is anchored at the end), and prefix the base URL. -/
def compute_url (rel : List String) : String :=
  let p := String.intercalate "/" rel
  let p := if p.startsWith "source/" then p.drop 7 else p
  let p :=
    if p.endsWith ".rst" then p.dropRight 4 ++ ".html"
    else if p.endsWith ".rest" then p.dropRight 5 ++ ".html"
    else p
  "https://cloudcustodian.io/docs/" ++ p

/-- The `pathlib.PurePath.stem`: the final component without its last
suffix; a dot at position 0 does not start a suffix. -/
def stemOfName (name : String) : String :=
  match ((List.range name.data.length).filter
      (fun i => decide (1 ≤ i) && name.data.getD i ' ' == '.')).getLast? with
  | some i => ⟨name.data.take i⟩
  | none => name

/-- The `Path.relative_to`: drop the base-path prefix, or raise `ValueError`
when the file path is not under the base path. -/
def relative_to (filePath basePath : List String) : Except String (List String) :=
  if basePath <+: filePath then Except.ok (filePath.drop basePath.length)
  else Except.error "ValueError"

/-- The external effects `parse_file` runs under: reading the file
(may raise), the docutils RST parse `_parse_rst` (may raise on malformed
markup), and the regex cleanup `_clean_content` (a total string
transformation, opaque here because no claim depends on its internals). -/
structure PipelineEnv where
  readText : List String → Except String String
  parseRst : String → Except String Node
  cleanContent : String → String

/-- The `DocumentParser.parse_file`: the whole body runs inside
`try: ... except Exception: return None`, so every failing step makes the
function return `none` and no exception escapes; each `match` on an
`Except` models the exception propagating to that handler.  Step order
follows the source. -/
def parse_file (env : PipelineEnv) (filePath basePath : List String) : Option Document :=
  match env.readText filePath with
  | .error _ => none
  | .ok source =>
    match env.parseRst source with
    | .error _ => none
    | .ok doctree =>
      let metadata := extract_metadata doctree (stemOfName ((filePath.getLast?).getD ""))
      match relative_to filePath basePath with
      | .error _ => none
      | .ok relativePath =>
        match extract_section relativePath with
        | none => none
        | some s =>
          some { path := String.intercalate "/" relativePath,
                 title := metadata.title, description := metadata.description,
                 «section» := s,
                 content := env.cleanContent (extract_text_content doctree),
                 url := compute_url relativePath }
/-! ### Theorems -/

/-- The `TriggerSpec` coincides with the boolean scan the code performs. -/
theorem triggerSpec_iff (q : List Char) :
    TriggerSpec q ↔ (hasSpecialChar q || hasOperatorWord q) = true := by
  unfold TriggerSpec hasSpecialChar hasOperatorWord
  simp [List.any_eq_true, List.mem_range]

/-- C3: a raw query containing one of `.():*"` or a whole-word
AND/OR/NOT (any case) is returned with every double quote doubled and the
whole string wrapped in one pair of double quotes; any other query passes
through unchanged. -/
theorem C3_sanitiser_rewrite (q : List Char) :
    (TriggerSpec q → sanitiseQueryChars q = '"' :: (escapeQuotes q ++ ['"'])) ∧
    (¬ TriggerSpec q → sanitiseQueryChars q = q) := by
  constructor
  · intro h
    unfold sanitiseQueryChars
    rw [if_pos ((triggerSpec_iff q).1 h)]
  · intro h
    unfold sanitiseQueryChars
    rw [if_neg (fun hb => h ((triggerSpec_iff q).2 hb))]

/-- Witness for C3: a triggered query (one special character) is quoted,
and an operator-free, special-character-free query is unchanged. -/
theorem C3_sanitiser_rewrite_witness :
    sanitiseQueryChars ['a', '.', 'b'] = ['"', 'a', '.', 'b', '"'] ∧
    sanitiseQueryChars ['h', 'i'] = ['h', 'i'] := by
  constructor
  · rw [(C3_sanitiser_rewrite ['a', '.', 'b']).1 (by decide)]
    decide
  · exact (C3_sanitiser_rewrite ['h', 'i']).2 (by decide)

/-- C6: the derived section is the second path segment when the first
segment is the reserved alias `source` and further segments exist,
otherwise the first segment when more than one segment exists, otherwise
the sentinel `root`. -/
theorem C6_section_derivation :
    (∀ a b rest, extract_section (a :: b :: rest) =
        some (if a = "source" then b else a)) ∧
    (∀ a, extract_section [a] = some "root") := by
  constructor
  · intro a b rest
    by_cases h : a = "source" <;> simp [extract_section, h]
  · intro a
    simp [extract_section]

mutual

/-- The visitor's accumulator threading is append-only. -/
theorem walkText_eq : ∀ (acc : List String) (t : Node),
    walkText acc t = acc ++ specProseTexts t
  | acc, .text s => by
    rw [walkText, specProseTexts]
    split <;> simp
  | acc, .elem k cs => by
    cases k <;>
      simp [walkText, specProseTexts, walkTextList_eq acc cs]

/-- The `walkText_eq` for child lists. -/
theorem walkTextList_eq : ∀ (acc : List String) (ts : List Node),
    walkTextList acc ts = acc ++ specProseTextsList ts
  | acc, [] => by rw [walkTextList, specProseTextsList, List.append_nil]
  | acc, t :: ts => by
    rw [walkTextList, specProseTextsList, walkText_eq acc t,
        walkTextList_eq (acc ++ specProseTexts t) ts, List.append_assoc]

end

/-- C9: the extracted content is exactly the trimmed texts of all text
leaves outside literal/code blocks and comments, in source order, joined
by single spaces — text under a literal block or comment never
contributes, nothing is reordered or deduplicated. -/
theorem C9_code_comment_exclusion (t : Node) :
    extract_text_content t = String.intercalate " " (specProseTexts t) := by
  rw [extract_text_content, walkText_eq, List.nil_append]

mutual

/-- A tree without a title node yields no visitor title. -/
theorem firstTitle_none : ∀ t : Node, hasTitleNode t = false → firstTitle t = none
  | .text _ => fun _ => by rw [firstTitle]
  | .elem k cs => fun h => by
    rw [hasTitleNode, Bool.or_eq_false_iff] at h
    cases k <;>
      first
        | (exact absurd h.1 (by decide))
        | (rw [firstTitle] <;>
            first
              | (exact firstTitleList_none cs h.2)
              | decide)

/-- The `firstTitle_none` for child lists. -/
theorem firstTitleList_none : ∀ ts : List Node,
    hasTitleNodeList ts = false → firstTitleList ts = none
  | [] => fun _ => by rw [firstTitleList]
  | t :: ts => fun h => by
    rw [hasTitleNodeList, Bool.or_eq_false_iff] at h
    rw [firstTitleList, firstTitle_none t h.1, firstTitleList_none ts h.2]

end

/-- The `pyTitleGo` maps a non-empty character list to a non-empty one. -/
theorem pyTitleGo_ne_nil (b : Bool) (cs : List Char) (h : cs ≠ []) :
    pyTitleGo b cs ≠ [] := by
  match cs with
  | [] => exact absurd rfl h
  | c :: cs =>
    rw [pyTitleGo]
    split <;> simp

/-- The filename-derived fallback title of a non-empty stem is
non-empty. -/
theorem fallbackTitle_ne_empty (stem : String) (h : stem ≠ "") :
    fallbackTitle stem ≠ "" := by
  have hdata : stem.data ≠ [] := fun hd => h (by cases stem; simp_all)
  intro hcon
  apply pyTitleGo_ne_nil false (replaceDashUnderscore stem).data
  · simp [replaceDashUnderscore, hdata]
  · have := congrArg String.data hcon
    exact this

/-- C7: when the parsed tree contains no title node the document title
is the file name stem with `-` and `_` replaced by spaces and the result
title-cased; the stem `my-test-file` yields `My Test File`; and for a
non-empty stem the resulting title is always non-empty. -/
theorem C7_title_fallback (tree : Node) (stem : String) :
    (hasTitleNode tree = false →
        (extract_metadata tree stem).title = fallbackTitle stem) ∧
    (stem ≠ "" → (extract_metadata tree stem).title ≠ "") ∧
    fallbackTitle "my-test-file" = "My Test File" := by
  refine ⟨fun h => ?_, fun h => ?_, by decide⟩
  · simp [extract_metadata, firstTitle_none tree h]
  · cases hft : firstTitle tree with
    | none =>
      simp only [extract_metadata, hft]
      exact fallbackTitle_ne_empty stem h
    | some t =>
      by_cases ht : t = ""
      · simp only [extract_metadata, hft, ht]
        simpa using fallbackTitle_ne_empty stem h
      · simp [extract_metadata, hft, ht]

/-- Witness for C7: a concrete title-free tree and the stem
`my-test-file` produce the non-empty title `My Test File`. -/
theorem C7_title_fallback_witness :
    (extract_metadata (Node.elem .other []) "my-test-file").title = "My Test File" ∧
    (extract_metadata (Node.elem .other []) "my-test-file").title ≠ "" := by
  have h0 : hasTitleNode (Node.elem .other []) = false := by
    rw [hasTitleNode, hasTitleNodeList]; decide
  constructor
  · rw [(C7_title_fallback (Node.elem .other []) "my-test-file").1 h0,
        (C7_title_fallback (Node.elem .other []) "my-test-file").2.2]
  · exact (C7_title_fallback (Node.elem .other []) "my-test-file").2.1 (by decide)

/-- C8: when the raw text cannot be parsed, or the file path is not
under the documentation root, `parse_file` returns `none` (the failure
signal) instead of a partial `Document`; its `try/except` wrapper means
no exception reaches the caller. -/
theorem C8_extraction_failure (env : PipelineEnv) (filePath basePath : List String) :
    (∀ src e, env.readText filePath = Except.ok src →
        env.parseRst src = Except.error e →
        parse_file env filePath basePath = none) ∧
    (¬ basePath <+: filePath → parse_file env filePath basePath = none) := by
  constructor
  · intro src e hr hp
    simp [parse_file, hr, hp]
  · intro h
    cases hr : env.readText filePath with
    | error e => simp [parse_file, hr]
    | ok src =>
      cases hp : env.parseRst src with
      | error e => simp [parse_file, hr, hp]
      | ok doctree =>
        simp [parse_file, hr, hp, relative_to, h]

/-- Witness for C8: a concrete failing parse and a concrete path outside
the root both produce `none`. -/
theorem C8_extraction_failure_witness :
    parse_file ⟨fun _ => Except.ok "x", fun _ => Except.error "bad", id⟩
      ["a.rst"] ["a.rst"] = none ∧
    parse_file ⟨fun _ => Except.ok "x", fun _ => Except.ok (Node.elem .other []), id⟩
      ["b.rst"] ["base"] = none := by
  constructor
  · exact (C8_extraction_failure _ _ _).1 "x" "bad" rfl rfl
  · exact (C8_extraction_failure _ _ _).2 (by decide)

/-! ### Store invariant preservation -/

/-- Filtering by a finer predicate first does not change the result. -/
theorem filter_filter_of_imp {α : Type} (l : List α) (p q : α → Bool)
    (h : ∀ a, q a = true → p a = true) :
    (l.filter p).filter q = l.filter q := by
  rw [List.filter_filter]
  apply List.filter_congr
  intro a _
  by_cases hq : q a = true
  · simp [hq, h a hq]
  · simp [hq]

/-- Filtering by a predicate disjoint from the first filter gives `[]`. -/
theorem filter_filter_disjoint {α : Type} (l : List α) (p q : α → Bool)
    (h : ∀ a, q a = true → p a = false) :
    (l.filter p).filter q = [] := by
  rw [List.filter_eq_nil_iff]
  intro a ha hq
  have hp := (List.mem_filter.1 ha).2
  rw [h a hq] at hp
  exact Bool.false_ne_true hp

/-- With a nodup key column, `find?` by key determines `filter` by key:
the single matching element. -/
theorem filter_key_of_find? {α β : Type} [DecidableEq β] (key : α → β)
    {l : List α} (hn : (l.map key).Nodup) {v : β} {a : α}
    (hf : l.find? (fun x => key x == v) = some a) :
    l.filter (fun x => key x == v) = [a] := by
  induction l with
  | nil => simp at hf
  | cons b l ih =>
    rw [List.map_cons, List.nodup_cons] at hn
    by_cases hb : (key b == v) = true
    · rw [List.find?_cons_of_pos (p := fun x => key x == v) _ hb] at hf
      have hba : b = a := by simpa using hf
      subst hba
      rw [List.filter_cons_of_pos (p := fun x => key x == v) hb]
      have hnil : l.filter (fun x => key x == v) = [] := by
        rw [List.filter_eq_nil_iff]
        intro x hx hxv
        apply hn.1
        rw [List.mem_map]
        refine ⟨x, hx, ?_⟩
        have h1 : key x = v := by simpa using hxv
        have h2 : key b = v := by simpa using hb
        rw [h1, h2]
      rw [hnil]
    · rw [List.find?_cons_of_neg (p := fun x => key x == v) _ hb] at hf
      rw [List.filter_cons_of_neg (p := fun x => key x == v) hb]
      exact ih hn.2 hf

/-- The `find?` commutes with a map that preserves the tested predicate. -/
theorem find?_map_pres {α : Type} (l : List α) (f : α → α) (p : α → Bool)
    (h : ∀ a, p (f a) = p a) :
    (l.map f).find? p = (l.find? p).map f := by
  induction l with
  | nil => rfl
  | cons a l ih =>
    rw [List.map_cons]
    by_cases hp : p a = true
    · rw [List.find?_cons_of_pos _ (show p (f a) = true by rw [h a]; exact hp),
          List.find?_cons_of_pos _ hp]
      rfl
    · rw [List.find?_cons_of_neg _ (show ¬p (f a) = true by rw [h a]; exact hp),
          List.find?_cons_of_neg _ hp, ih]

/-- The empty database satisfies the invariant. -/
theorem inv_init : Inv DBState.init := by
  constructor <;> simp [DBState.init]

/-- The `clear` re-establishes the invariant. -/
theorem inv_clear (st : DBState) (h : Inv st) : Inv (clear st) := by
  constructor
  · simp [clear]
  · simp [clear]
  · simp [clear]
  · simp [clear]
  · intro e he
    exfalso
    rw [clear] at he
    simp only [List.mem_filter] at he
    obtain ⟨hein, hall⟩ := he
    obtain ⟨r, hr, hid⟩ := h.ftsSound e hein
    rw [List.all_eq_true] at hall
    have := hall r hr
    simp [hid] at this

/-- On a state satisfying the invariant, `clear` empties the index: the
delete trigger removes the entry of every row, and every entry belongs
to some row. -/
theorem clear_fts_nil (st : DBState) (h : Inv st) : (clear st).fts = [] := by
  rw [clear]
  simp only [List.filter_eq_nil_iff]
  intro e he hall
  obtain ⟨r, hr, hid⟩ := h.ftsSound e he
  rw [List.all_eq_true] at hall
  have := hall r hr
  simp [hid] at this

/-- The `updateRow` preserves the row id. -/
theorem updateRow_id (r : Row) (d : Document) (now : Nat) :
    (updateRow r d now).id = r.id := rfl

/-- The `updateRow` preserves the row path. -/
theorem updateRow_path (r : Row) (d : Document) (now : Nat) :
    (updateRow r d now).path = r.path := rfl

/-- The conflict branch of `upsert_document`, unfolded. -/
theorem upsert_eq_update (st : DBState) (d : Document) (now : Nat) {old : Row}
    (hf : st.documents.find? (fun r => r.path == d.path) = some old) :
    upsert_document st d now =
      { documents := st.documents.map
          (fun r => if r.path == d.path then updateRow r d now else r),
        fts := st.fts.filter (fun e => !(e.rowid == old.id))
                 ++ [rowFts (updateRow old d now)],
        nextId := st.nextId } := by
  simp only [upsert_document, hf]

/-- The insert branch of `upsert_document`, unfolded. -/
theorem upsert_eq_insert (st : DBState) (d : Document) (now : Nat)
    (hf : st.documents.find? (fun r => r.path == d.path) = none) :
    upsert_document st d now =
      { documents := st.documents ++ [newRow d st.nextId now],
        fts := st.fts ++ [rowFts (newRow d st.nextId now)],
        nextId := st.nextId + 1 } := by
  simp only [upsert_document, hf]

/-- The `newRow` carries the autoincrement id. -/
theorem newRow_id (d : Document) (i n : Nat) : (newRow d i n).id = i := rfl

/-- The `newRow` carries the document path. -/
theorem newRow_path (d : Document) (i n : Nat) : (newRow d i n).path = d.path := rfl

/-- The `upsert_document` preserves the invariant. -/
theorem inv_upsert (st : DBState) (d : Document) (now : Nat) (h : Inv st) :
    Inv (upsert_document st d now) := by
  cases hf : st.documents.find? (fun r => r.path == d.path) with
  | some old =>
    have hold_mem : old ∈ st.documents := List.mem_of_find?_eq_some hf
    have hold_path : old.path = d.path := by simpa using List.find?_some hf
    have hold_beq : (old.path == d.path) = true := by simpa using hold_path
    have hpres_id : ∀ r : Row,
        (if r.path == d.path then updateRow r d now else r).id = r.id := by
      intro r
      by_cases hr : (r.path == d.path) = true <;> simp [hr, updateRow]
    have hpres_path : ∀ r : Row,
        (if r.path == d.path then updateRow r d now else r).path = r.path := by
      intro r
      by_cases hr : (r.path == d.path) = true <;> simp [hr, updateRow]
    rw [upsert_eq_update st d now hf]
    refine ⟨?_, ?_, ?_, ?_, ?_⟩
    · show ((st.documents.map
          (fun r => if r.path == d.path then updateRow r d now else r)).map Row.id).Nodup
      rw [List.map_map]
      rw [show (Row.id ∘ fun r => if r.path == d.path then updateRow r d now else r)
            = fun r => (if r.path == d.path then updateRow r d now else r).id from rfl]
      rw [List.map_congr_left (fun r _ => hpres_id r)]
      exact h.idsNodup
    · show ((st.documents.map
          (fun r => if r.path == d.path then updateRow r d now else r)).map Row.path).Nodup
      rw [List.map_map]
      rw [show (Row.path ∘ fun r => if r.path == d.path then updateRow r d now else r)
            = fun r => (if r.path == d.path then updateRow r d now else r).path from rfl]
      rw [List.map_congr_left (fun r _ => hpres_path r)]
      exact h.pathsNodup
    · intro r' hr'
      obtain ⟨r, hr, hfr⟩ := List.mem_map.1 hr'
      show r'.id < st.nextId
      rw [← hfr, hpres_id r]
      exact h.idsLt r hr
    · intro r' hr'
      obtain ⟨r, hr, hfr⟩ := List.mem_map.1 hr'
      show (st.fts.filter (fun e => !(e.rowid == old.id))
              ++ [rowFts (updateRow old d now)]).filter (fun e => e.rowid == r'.id)
            = [rowFts r']
      rw [List.filter_append]
      by_cases hrp : (r.path == d.path) = true
      · have hreq : r = old :=
          List.inj_on_of_nodup_map h.pathsNodup hr hold_mem
            (by rw [hold_path]; simpa using hrp)
        have hr'eq : r' = updateRow old d now := by
          rw [← hfr, hreq]
          simp [hold_beq]
        rw [hr'eq]
        rw [filter_filter_disjoint st.fts _ _ ?_]
        · rw [List.nil_append]
          rw [List.filter_cons_of_pos (by simp [rowFts, updateRow_id])]
          rfl
        · intro e he
          rw [updateRow_id] at he
          simp [he]
      · have hr'eq : r' = r := by rw [← hfr]; simp [hrp]
        rw [hr'eq]
        have hid_ne : r.id ≠ old.id := by
          intro he
          have : r = old := List.inj_on_of_nodup_map h.idsNodup hr hold_mem he
          rw [this] at hrp
          exact hrp hold_beq
        rw [filter_filter_of_imp st.fts _ _ ?_]
        · rw [h.ftsComplete r hr]
          rw [List.filter_cons_of_neg ?_]
          · rw [List.filter_nil, List.append_nil]
          · rw [rowFts, updateRow_id]
            simp only [beq_iff_eq]
            exact fun hcon => hid_ne hcon.symm
        · intro e he
          have he' : e.rowid = r.id := by simpa using he
          simp [he', hid_ne]
    · intro e he
      rcases List.mem_append.1 he with hin | hin
      · obtain ⟨r, hr, hid⟩ := h.ftsSound e (List.mem_filter.1 hin).1
        refine ⟨(if r.path == d.path then updateRow r d now else r),
                List.mem_map_of_mem _ hr, ?_⟩
        rw [hpres_id r]
        exact hid
      · have heq : e = rowFts (updateRow old d now) := by simpa using hin
        subst heq
        refine ⟨(if old.path == d.path then updateRow old d now else old),
                List.mem_map_of_mem _ hold_mem, ?_⟩
        simp [hold_beq, rowFts, updateRow_id]
  | none =>
    have hnone : ∀ r ∈ st.documents, ¬((r.path == d.path) = true) :=
      List.find?_eq_none.1 hf
    have hfts_lt : ∀ e ∈ st.fts, e.rowid < st.nextId := by
      intro e he
      obtain ⟨r, hr, hid⟩ := h.ftsSound e he
      rw [← hid]
      exact h.idsLt r hr
    rw [upsert_eq_insert st d now hf]
    refine ⟨?_, ?_, ?_, ?_, ?_⟩
    · show ((st.documents ++ [newRow d st.nextId now]).map Row.id).Nodup
      rw [List.map_append, List.nodup_append]
      refine ⟨h.idsNodup, List.nodup_singleton _, ?_⟩
      intro a ha hb
      obtain ⟨r, hr, rfl⟩ := List.mem_map.1 ha
      have hb' : r.id = (newRow d st.nextId now).id := by simpa using hb
      rw [newRow_id] at hb'
      have := h.idsLt r hr
      omega
    · show ((st.documents ++ [newRow d st.nextId now]).map Row.path).Nodup
      rw [List.map_append, List.nodup_append]
      refine ⟨h.pathsNodup, List.nodup_singleton _, ?_⟩
      intro a ha hb
      obtain ⟨r, hr, rfl⟩ := List.mem_map.1 ha
      have hb' : r.path = (newRow d st.nextId now).path := by simpa using hb
      rw [newRow_path] at hb'
      exact hnone r hr (by simpa using hb')
    · intro r' hr'
      show r'.id < st.nextId + 1
      rcases List.mem_append.1 hr' with hin | hin
      · have := h.idsLt r' hin
        omega
      · have hr'eq : r' = newRow d st.nextId now := by simpa using hin
        rw [hr'eq, newRow_id]
        omega
    · intro r' hr'
      show (st.fts ++ [rowFts (newRow d st.nextId now)]).filter
            (fun e => e.rowid == r'.id) = [rowFts r']
      rw [List.filter_append]
      rcases List.mem_append.1 hr' with hin | hin
      · rw [h.ftsComplete r' hin]
        rw [List.filter_cons_of_neg ?_]
        · rw [List.filter_nil, List.append_nil]
        · have h1 : (rowFts (newRow d st.nextId now)).rowid = st.nextId := rfl
          have h2 := h.idsLt r' hin
          simp only [h1, beq_iff_eq]
          omega
      · have hr'eq : r' = newRow d st.nextId now := by simpa using hin
        rw [hr'eq]
        have hempty : st.fts.filter
            (fun e => e.rowid == (newRow d st.nextId now).id) = [] := by
          rw [List.filter_eq_nil_iff]
          intro e he hcon
          have h1 := hfts_lt e he
          have h2 : e.rowid = (newRow d st.nextId now).id := by simpa using hcon
          rw [newRow_id] at h2
          omega
        rw [hempty, List.nil_append]
        rw [List.filter_cons_of_pos (by simp [rowFts, newRow_id])]
        rfl
    · intro e he
      rcases List.mem_append.1 he with hin | hin
      · obtain ⟨r, hr, hid⟩ := h.ftsSound e hin
        exact ⟨r, List.mem_append_left _ hr, hid⟩
      · have heq : e = rowFts (newRow d st.nextId now) := by simpa using hin
        subst heq
        exact ⟨newRow d st.nextId now,
               List.mem_append_right _ (List.mem_singleton_self _), rfl⟩

/-- The invariant holds after any run from an invariant state. -/
theorem inv_run (st : DBState) (h : Inv st) (ops : List Op) : Inv (run st ops) := by
  induction ops generalizing st with
  | nil => exact h
  | cons op ops ih =>
    rw [run]
    cases op with
    | upsert d now => exact ih _ (inv_upsert _ _ _ h)
    | clear => exact ih _ (inv_clear _ h)

/-- Every state reachable from the fresh database satisfies the
invariant. -/
theorem reachable_inv (ops : List Op) : Inv (run DBState.init ops) :=
  inv_run DBState.init inv_init ops

/-- A concrete document used by the witnesses. -/
def sampleDoc : Document :=
  ⟨"aws/ec2.rst", "EC2", some "Elastic compute", "aws", "ec2 instance guide",
   "https://cloudcustodian.io/docs/aws/ec2.html"⟩

/-- A second concrete document under the same path, other fields
changed. -/
def sampleDoc2 : Document :=
  ⟨"aws/ec2.rst", "EC2 v2", none, "aws", "updated ec2 guide",
   "https://cloudcustodian.io/docs/aws/ec2.html"⟩

/-- A concrete document under a different path. -/
def sampleDocB : Document :=
  ⟨"azure/vm.rst", "VM", none, "azure", "vm sizes", "https://cloudcustodian.io/docs/azure/vm.html"⟩

/-- An FTS match oracle that matches everything. -/
def wMatch : String → FtsEntry → Bool := fun _ _ => true

/-- A constant bm25 oracle (bm25 values are never positive). -/
def wScore : String → FtsEntry → ℚ := fun _ _ => -1

/-- A constant snippet oracle. -/
def wSnip : String → FtsEntry → String := fun _ _ => "snip"

/-- C1: in every state reachable by `upsert_document`/`clear` from the
fresh database, the FTS index holds exactly one entry per document row
carrying that row's current `title`, `description` and `content`, and no
entry without a row; after `clear` the store and index are empty,
`get_document_count` is `0`, and every `search` returns `[]`. -/
theorem C1_store_index_consistency (ops : List Op) :
    (∀ r ∈ (run DBState.init ops).documents,
        (run DBState.init ops).fts.filter (fun e => e.rowid == r.id) = [rowFts r]) ∧
    (∀ e ∈ (run DBState.init ops).fts,
        ∃ r ∈ (run DBState.init ops).documents, r.id = e.rowid) ∧
    (clear (run DBState.init ops)).documents = [] ∧
    (clear (run DBState.init ops)).fts = [] ∧
    get_document_count (clear (run DBState.init ops)) = 0 ∧
    (∀ matchFn scoreFn snippetFn q sec lim,
        search (clear (run DBState.init ops)) matchFn scoreFn snippetFn q sec lim
          = []) := by
  have hinv := reachable_inv ops
  refine ⟨hinv.ftsComplete, hinv.ftsSound, rfl, clear_fts_nil _ hinv, rfl, ?_⟩
  intro matchFn scoreFn snippetFn q sec lim
  have hfts := clear_fts_nil _ hinv
  show (applyLimit lim (List.insertionSort _
      (searchRows (clear (run DBState.init ops)) matchFn (sanitise_query q) sec))).map _ = []
  rw [searchRows, hfts]
  show (applyLimit lim (List.insertionSort _ [])).map _ = []
  rw [List.insertionSort]
  rw [applyLimit]
  split <;> simp

/-- Witness for C1: one concrete upsert, its single index entry, and
emptiness after `clear`. -/
theorem C1_store_index_consistency_witness :
    (run DBState.init [Op.upsert sampleDoc 5]).fts.filter
        (fun e => e.rowid == (newRow sampleDoc 1 5).id)
      = [rowFts (newRow sampleDoc 1 5)] ∧
    (clear (run DBState.init [Op.upsert sampleDoc 5])).fts = [] ∧
    search (clear (run DBState.init [Op.upsert sampleDoc 5])) wMatch wScore wSnip
      "ec2" none 10 = [] := by
  refine ⟨(C1_store_index_consistency [Op.upsert sampleDoc 5]).1
            (newRow sampleDoc 1 5) (by decide), ?_, ?_⟩
  · exact (C1_store_index_consistency [Op.upsert sampleDoc 5]).2.2.2.1
  · exact (C1_store_index_consistency [Op.upsert sampleDoc 5]).2.2.2.2.2
      wMatch wScore wSnip "ec2" none 10

/-- C2: upserting a document whose path already has a row replaces
`title`, `description`, `section`, `url`, `content`, sets `updated_at`
to the current time, keeps the row's `id` and `created_at`, and leaves
exactly one record under the path; upserting a fresh path inserts one
record with both timestamps set to now. -/
theorem C2_upsert_semantics (ops : List Op) (d : Document) (now : Nat) :
    (∀ old,
        (run DBState.init ops).documents.find? (fun r => r.path == d.path) = some old →
        (upsert_document (run DBState.init ops) d now).documents.filter
            (fun r => r.path == d.path)
          = [{ id := old.id, path := d.path, title := d.title,
               description := d.description, «section» := d.«section», url := d.url,
               content := d.content, created_at := old.created_at,
               updated_at := now }]) ∧
    ((run DBState.init ops).documents.find? (fun r => r.path == d.path) = none →
        (upsert_document (run DBState.init ops) d now).documents.filter
            (fun r => r.path == d.path)
          = [{ id := (run DBState.init ops).nextId, path := d.path, title := d.title,
               description := d.description, «section» := d.«section», url := d.url,
               content := d.content, created_at := now, updated_at := now }]) := by
  have hinv := reachable_inv ops
  constructor
  · intro old hf
    have hbeq : (old.path == d.path) = true := by simpa using List.find?_some hf
    have hop : old.path = d.path := by simpa using hbeq
    rw [upsert_eq_update (run DBState.init ops) d now hf]
    show ((run DBState.init ops).documents.map
        (fun r => if r.path == d.path then updateRow r d now else r)).filter
          (fun r => r.path == d.path) = _
    rw [List.filter_map]
    have hcomp : ((fun r : Row => r.path == d.path) ∘
        (fun r => if r.path == d.path then updateRow r d now else r))
          = fun r : Row => r.path == d.path := by
      funext r
      by_cases hr : (r.path == d.path) = true <;>
        simp [Function.comp, hr, updateRow]
    rw [hcomp]
    rw [filter_key_of_find? Row.path hinv.pathsNodup hf]
    rw [List.map_cons, List.map_nil]
    rw [if_pos hbeq]
    simp [updateRow, hop]
  · intro hf
    rw [upsert_eq_insert (run DBState.init ops) d now hf]
    show ((run DBState.init ops).documents ++
        [newRow d (run DBState.init ops).nextId now]).filter
          (fun r => r.path == d.path) = _
    rw [List.filter_append]
    have h1 : (run DBState.init ops).documents.filter (fun r => r.path == d.path) = [] := by
      rw [List.filter_eq_nil_iff]
      exact List.find?_eq_none.1 hf
    rw [h1, List.nil_append]
    rw [List.filter_cons_of_pos (by simp [newRow_path])]
    rfl

/-- Witness for C2: a second upsert under the same path leaves one
record with the original id and `created_at`, the new field values and
the new `updated_at`; a first upsert inserts with both timestamps now. -/
theorem C2_upsert_semantics_witness :
    (upsert_document (run DBState.init [Op.upsert sampleDoc 0]) sampleDoc2 7).documents.filter
        (fun r => r.path == sampleDoc2.path)
      = [{ id := 1, path := sampleDoc2.path, title := sampleDoc2.title,
           description := sampleDoc2.description, «section» := sampleDoc2.«section»,
           url := sampleDoc2.url, content := sampleDoc2.content,
           created_at := 0, updated_at := 7 }] ∧
    (upsert_document (run DBState.init []) sampleDoc 7).documents.filter
        (fun r => r.path == sampleDoc.path)
      = [{ id := 1, path := sampleDoc.path, title := sampleDoc.title,
           description := sampleDoc.description, «section» := sampleDoc.«section»,
           url := sampleDoc.url, content := sampleDoc.content,
           created_at := 7, updated_at := 7 }] := by
  constructor
  · exact (C2_upsert_semantics [Op.upsert sampleDoc 0] sampleDoc2 7).1
      (newRow sampleDoc 1 0) (by decide)
  · exact (C2_upsert_semantics [] sampleDoc 7).2 rfl

/-- The path recorded by an upsert operation, if any. -/
def upsertPath : Op → Option String
  | .upsert d _ => some d.path
  | .clear => none

/-- A path never upserted has no row after any run. -/
theorem run_find_none (ops : List Op) (p : String) (st : DBState)
    (h0 : st.documents.find? (fun r => r.path == p) = none)
    (h : p ∉ ops.filterMap upsertPath) :
    (run st ops).documents.find? (fun r => r.path == p) = none := by
  induction ops generalizing st with
  | nil => exact h0
  | cons op ops ih =>
    rw [run]
    cases op with
    | clear =>
      refine ih (applyOp st .clear) rfl ?_
      simpa [upsertPath] using h
    | upsert d now =>
      have hmem : p ∉ ops.filterMap upsertPath ∧ d.path ≠ p := by
        rw [List.filterMap_cons] at h
        simp only [upsertPath] at h
        rw [List.mem_cons] at h
        push_neg at h
        exact ⟨h.2, fun he => h.1 he.symm⟩
      refine ih (applyOp st (.upsert d now)) ?_ hmem.1
      show (upsert_document st d now).documents.find? (fun r => r.path == p) = none
      cases hf : st.documents.find? (fun r => r.path == d.path) with
      | some old =>
        rw [upsert_eq_update st d now hf]
        show ((st.documents.map
            (fun r => if r.path == d.path then updateRow r d now else r)).find?
              (fun r => r.path == p)) = none
        rw [find?_map_pres st.documents _ _ ?_]
        · rw [h0]
          rfl
        · intro r
          by_cases hr : (r.path == d.path) = true <;> simp [hr, updateRow]
      | none =>
        rw [upsert_eq_insert st d now hf]
        show ((st.documents ++ [newRow d st.nextId now]).find?
            (fun r => r.path == p)) = none
        rw [List.find?_append, h0, Option.none_or]
        rw [List.find?_cons_of_neg _ (by simp [newRow_path]; exact hmem.2)]
        rfl

/-- C10: immediately after `upsert_document d`, `get_document d.path`
returns a `Document` equal to `d` on all six model fields (no timestamps
are exposed); a path never upserted returns `none`, and after `clear`
every path returns `none`. -/
theorem C10_roundtrip (ops : List Op) (d : Document) (now : Nat) (p : String) :
    get_document (upsert_document (run DBState.init ops) d now) d.path = some d ∧
    (p ∉ ops.filterMap upsertPath → get_document (run DBState.init ops) p = none) ∧
    (∀ st : DBState, get_document (clear st) p = none) := by
  refine ⟨?_, ?_, fun st => rfl⟩
  · cases hf : (run DBState.init ops).documents.find? (fun r => r.path == d.path) with
    | some old =>
      have hbeq : (old.path == d.path) = true := by simpa using List.find?_some hf
      rw [upsert_eq_update (run DBState.init ops) d now hf, get_document]
      show (((run DBState.init ops).documents.map
          (fun r => if r.path == d.path then updateRow r d now else r)).find?
            (fun r => r.path == d.path)).map rowDoc = some d
      rw [find?_map_pres _ _ _ ?_]
      · rw [hf]
        show some (rowDoc (if old.path == d.path then updateRow old d now else old)) = some d
        rw [if_pos hbeq]
        have hop : old.path = d.path := by simpa using hbeq
        simp [rowDoc, updateRow, hop]
      · intro r
        by_cases hr : (r.path == d.path) = true <;> simp [hr, updateRow]
    | none =>
      rw [upsert_eq_insert (run DBState.init ops) d now hf, get_document]
      show (((run DBState.init ops).documents ++
          [newRow d (run DBState.init ops).nextId now]).find?
            (fun r => r.path == d.path)).map rowDoc = some d
      rw [List.find?_append, hf, Option.none_or]
      rw [List.find?_cons_of_pos _ (by simp [newRow_path])]
      rfl
  · intro h
    rw [get_document, run_find_none ops p DBState.init rfl h]
    rfl

/-- Witness for C10: a concrete upsert/get round trip, and `none` for a
path never written. -/
theorem C10_roundtrip_witness :
    get_document (upsert_document (run DBState.init []) sampleDoc 3) sampleDoc.path
      = some sampleDoc ∧
    get_document (run DBState.init []) "missing" = none := by
  exact ⟨(C10_roundtrip [] sampleDoc 3 "missing").1,
         (C10_roundtrip [] sampleDoc 3 "missing").2.1 (by simp)⟩

/-- C4: with a positive limit and bm25's never-positive raw scores,
`search` returns at most `limit` results, each carrying the non-negative
absolute value of the raw score of a matched row, ordered by the exposed
score non-increasing; and when nothing matches it returns `[]` rather
than failing. -/
theorem C4_search_ordering (st : DBState) (matchFn : String → FtsEntry → Bool)
    (scoreFn : String → FtsEntry → ℚ) (snippetFn : String → FtsEntry → String)
    (q : String) (sec : Option String) (lim : Int)
    (hlim : 1 ≤ lim) (hbm25 : ∀ q' e, scoreFn q' e ≤ 0) :
    ((search st matchFn scoreFn snippetFn q sec lim).length : Int) ≤ lim ∧
    (∀ r ∈ search st matchFn scoreFn snippetFn q sec lim,
        0 ≤ r.score ∧ ∃ pr ∈ searchRows st matchFn (sanitise_query q) sec,
          r.score = |scoreFn (sanitise_query q) pr.1|) ∧
    (search st matchFn scoreFn snippetFn q sec lim).Pairwise
      (fun a b => b.score ≤ a.score) ∧
    ((∀ e ∈ st.fts, matchFn (sanitise_query q) e = false) →
        search st matchFn scoreFn snippetFn q sec lim = []) := by
  have hsearch : search st matchFn scoreFn snippetFn q sec lim
      = (applyLimit lim (List.insertionSort (byScore (scoreFn (sanitise_query q)))
            (searchRows st matchFn (sanitise_query q) sec))).map
          (fun p => ⟨p.2.path, p.2.title, p.2.url, snippetFn (sanitise_query q) p.1,
                     |scoreFn (sanitise_query q) p.1|, p.2.«section»⟩) := rfl
  refine ⟨?_, ?_, ?_, ?_⟩
  · rw [hsearch, List.length_map, applyLimit, if_neg (by omega)]
    have h1 : (List.take lim.toNat (List.insertionSort
        (byScore (scoreFn (sanitise_query q)))
        (searchRows st matchFn (sanitise_query q) sec))).length ≤ lim.toNat := by
      rw [List.length_take]
      exact min_le_left _ _
    calc ((List.take lim.toNat _).length : Int)
        ≤ (lim.toNat : Int) := by exact_mod_cast h1
      _ = lim := Int.toNat_of_nonneg (by omega)
  · intro r hr
    rw [hsearch] at hr
    obtain ⟨pr, hpr, hrr⟩ := List.mem_map.1 hr
    have hscore : r.score = |scoreFn (sanitise_query q) pr.1| := by rw [← hrr]
    refine ⟨hscore ▸ abs_nonneg _, pr, ?_, hscore⟩
    have h1 : pr ∈ List.insertionSort (byScore (scoreFn (sanitise_query q)))
        (searchRows st matchFn (sanitise_query q) sec) := by
      rw [applyLimit] at hpr
      split at hpr
      · exact hpr
      · exact List.mem_of_mem_take hpr
    exact (List.mem_insertionSort _).1 h1
  · rw [hsearch, List.pairwise_map]
    have hsorted : (List.insertionSort (byScore (scoreFn (sanitise_query q)))
        (searchRows st matchFn (sanitise_query q) sec)).Pairwise
          (byScore (scoreFn (sanitise_query q))) :=
      List.sorted_insertionSort _ _
    have hsub : List.Sublist
        (applyLimit lim (List.insertionSort (byScore (scoreFn (sanitise_query q)))
          (searchRows st matchFn (sanitise_query q) sec)))
        (List.insertionSort (byScore (scoreFn (sanitise_query q)))
          (searchRows st matchFn (sanitise_query q) sec)) := by
      rw [applyLimit]
      split
      · exact List.Sublist.refl _
      · exact List.take_sublist _ _
    refine (hsorted.sublist hsub).imp ?_
    intro a b hab
    show |scoreFn (sanitise_query q) b.1| ≤ |scoreFn (sanitise_query q) a.1|
    rw [abs_of_nonpos (hbm25 (sanitise_query q) b.1),
        abs_of_nonpos (hbm25 (sanitise_query q) a.1)]
    exact neg_le_neg hab
  · intro hnm
    have hrows : searchRows st matchFn (sanitise_query q) sec = [] := by
      rw [searchRows]
      rw [show st.fts.filter (matchFn (sanitise_query q)) = [] from by
        rw [List.filter_eq_nil_iff]
        intro e he
        simp [hnm e he]]
      rfl
    rw [hsearch, hrows]
    simp [applyLimit, List.insertionSort]

/-- Witness for C4: one indexed document, the all-match oracle and a
constant raw score of `-1`. -/
theorem C4_search_ordering_witness :
    ((search (run DBState.init [Op.upsert sampleDoc 0]) wMatch wScore wSnip
        "ec2" none 5).length : Int) ≤ 5 ∧
    (search (run DBState.init [Op.upsert sampleDoc 0]) wMatch wScore wSnip
        "ec2" none 5).Pairwise (fun a b => b.score ≤ a.score) := by
  have h := C4_search_ordering (run DBState.init [Op.upsert sampleDoc 0])
    wMatch wScore wSnip "ec2" none 5 (by norm_num)
    (fun _ _ => by norm_num [wScore])
  exact ⟨h.1, h.2.2.1⟩

/-- Counterexample for C5: `search` performs no validation of
`limit < 1`; with `limit = -1` (passed straight into SQL `LIMIT`, where
a negative value means "no limit") it silently executes and returns a
non-empty result list instead of reporting an error. -/
theorem C5_counterexample :
    search (run DBState.init [Op.upsert sampleDoc 0, Op.upsert sampleDocB 1])
        wMatch wScore wSnip "q" none (-1)
      = [⟨"aws/ec2.rst", "EC2", "https://cloudcustodian.io/docs/aws/ec2.html",
          "snip", 1, "aws"⟩,
         ⟨"azure/vm.rst", "VM", "https://cloudcustodian.io/docs/azure/vm.html",
          "snip", 1, "azure"⟩] := by
  decide

/-- C5 (amended): `search` with `limit < 1` is not rejected; the value
is passed through to the query, so `limit = 0` yields an empty list and
a negative limit yields every match with no truncation. -/
theorem C5_amended_no_validation (st : DBState)
    (matchFn : String → FtsEntry → Bool) (scoreFn : String → FtsEntry → ℚ)
    (snippetFn : String → FtsEntry → String) (q : String) (sec : Option String) :
    search st matchFn scoreFn snippetFn q sec 0 = [] ∧
    (∀ lim : Int, lim < 0 →
        (search st matchFn scoreFn snippetFn q sec lim).length
          = (searchRows st matchFn (sanitise_query q) sec).length) := by
  have hsearch : ∀ L : Int, search st matchFn scoreFn snippetFn q sec L
      = (applyLimit L (List.insertionSort (byScore (scoreFn (sanitise_query q)))
            (searchRows st matchFn (sanitise_query q) sec))).map
          (fun p => ⟨p.2.path, p.2.title, p.2.url, snippetFn (sanitise_query q) p.1,
                     |scoreFn (sanitise_query q) p.1|, p.2.«section»⟩) := fun _ => rfl
  constructor
  · rw [hsearch 0, applyLimit, if_neg (by omega)]
    simp
  · intro lim hlim
    rw [hsearch lim, applyLimit, if_pos hlim, List.length_map,
        List.length_insertionSort]

/-- Witness for C5 (amended): concrete zero and negative limits. -/
theorem C5_amended_no_validation_witness :
    search DBState.init wMatch wScore wSnip "x" none 0 = [] ∧
    (search (run DBState.init [Op.upsert sampleDoc 0]) wMatch wScore wSnip
        "x" none (-1)).length
      = (searchRows (run DBState.init [Op.upsert sampleDoc 0]) wMatch
          (sanitise_query "x") none).length := by
  exact ⟨(C5_amended_no_validation DBState.init wMatch wScore wSnip "x" none).1,
         (C5_amended_no_validation (run DBState.init [Op.upsert sampleDoc 0])
            wMatch wScore wSnip "x" none).2 (-1) (by norm_num)⟩

end Custodian
